import Mathlib

/-!
Verification development for the Risk Language Bias Detector pipeline
(`RiskLanguageBiasDetector.py`).  The non-UI logic of the program is
shallowly embedded below: text segmentation (`chunk_text`), key
normalization (`normalize_keys`), the defensive JSON parsing stage of
`analyze_bias`, the relevance gate built on `check_relevance`, and the
score/category/follow-up aggregation of the main loop.  External
capabilities (the LLM backend, the UI framework, PDF extraction) are out
of scope; functions that consume an LLM response are modelled as
functions of the response content string.
-/

/-! ## Whitespace word splitting

Model of Python `str.split()` (no separator argument): split on runs of
whitespace, discarding empty pieces.  Implemented with a character
accumulator so that the definition is structurally recursive and reduces
inside the kernel. -/

/-- Accumulator-based splitter: `acc` holds the reversed characters of the
word currently being read. -/
def splitWsAux : List Char → List Char → List (List Char)
  | [], [] => []
  | [], acc => [acc.reverse]
  | c :: cs, acc =>
    if c.isWhitespace then
      match acc with
      | [] => splitWsAux cs []
      | _ :: _ => acc.reverse :: splitWsAux cs []
    else splitWsAux cs (c :: acc)

/-- Model of Python `text.split()`: the list of maximal whitespace-free
nonempty words of `l`, in order. -/
def splitWs (l : List Char) : List (List Char) := splitWsAux l []

/-- Model of Python `" ".join(words)`. -/
def joinWords : List (List Char) → List Char
  | [] => []
  | [w] => w
  | w :: ws => w ++ ' ' :: joinWords ws

/-! ## Python slices and the Segmenter -/

/-- Effective index of a Python slice bound `i` for a sequence of length
`n`: negative indices count from the end, and both ends are clamped to
`[0, n]`. -/
def sliceIdx (n : Nat) (i : Int) : Nat :=
  if i < 0 then ((n : Int) + i).toNat else min i.toNat n

/-- Model of the Python slice `l[i:j]` (step 1, `int` bounds). -/
def pySlice {α : Type} (l : List α) (i j : Int) : List α :=
  (l.drop (sliceIdx l.length i)).take (sliceIdx l.length j - sliceIdx l.length i)

/-- The `while start < len(words)` loop of `chunk_text`, with explicit
fuel: one unit of fuel per iteration.  `none` means the loop was still
running when the fuel ran out, so `(∀ fuel, ... = none)` expresses
nontermination.  The segment is kept as its word-slice here; `chunk_text`
applies the `" ".join` of the source.  `start` is an `Int`, as in Python,
so the advance `start += chunk_size - overlap` is genuine integer
arithmetic. -/
def chunkLoop (words : List (List Char)) (chunkSize overlap : Int) :
    Nat → Int → Option (List (List (List Char)))
  | 0, start =>
    if start < (words.length : Int) then Option.none else some []
  | Nat.succ f, start =>
    if start < (words.length : Int) then
      (chunkLoop words chunkSize overlap f (start + (chunkSize - overlap))).map
        (fun rest => pySlice words start (start + chunkSize) :: rest)
    else some []

/-- Model of `chunk_text(text, chunk_size, overlap)`: split into words,
then repeatedly emit `" ".join(words[start:start+chunk_size])` advancing
`start` by `chunk_size - overlap`.  The `fuel` argument bounds the number
of loop iterations; the Python loop has no such bound, which is why a
configuration with a non-positive advance step never terminates. -/
def chunk_text (text : String) (chunkSize overlap : Int) (fuel : Nat) :
    Option (List String) :=
  (chunkLoop (splitWs text.toList) chunkSize overlap fuel 0).map
    (fun segs => segs.map (fun ws => String.mk (joinWords ws)))

/-- Reassembly described by the spec: keep the first segment whole and
drop the first `ov` words of every later segment, then concatenate. -/
def reassemble {α : Type} (ov : Nat) : List (List α) → List α
  | [] => []
  | s :: rest => s ++ (rest.map (List.drop ov)).flatten

/-! ## Python values and a model of `json.loads`

`PyVal` models the Python values flowing through the analysis stage:
JSON-decodable values plus booleans and `None`.  Dictionaries are
insertion-ordered association lists, as in Python. -/

/-- Python values produced and consumed by the parsing/aggregation code. -/
inductive PyVal : Type where
  | str : String → PyVal
  | int : Int → PyVal
  | bool : Bool → PyVal
  | nullv : PyVal
  | list : List PyVal → PyVal
  | dict : List (String × PyVal) → PyVal

/-- Drop leading whitespace characters. -/
def skipWs (l : List Char) : List Char := l.dropWhile Char.isWhitespace

/-- Body of a JSON string literal after the opening quote: read characters
into the (reversed) accumulator until the closing quote, decoding the
common escapes.  Unknown escapes and an unterminated literal fail. -/
def parseStrAux : List Char → List Char → Option (String × List Char)
  | [], _ => Option.none
  | '"' :: rest, acc => some (String.mk acc.reverse, rest)
  | '\\' :: '"' :: rest, acc => parseStrAux rest ('"' :: acc)
  | '\\' :: '\\' :: rest, acc => parseStrAux rest ('\\' :: acc)
  | '\\' :: '/' :: rest, acc => parseStrAux rest ('/' :: acc)
  | '\\' :: 'n' :: rest, acc => parseStrAux rest ('\n' :: acc)
  | '\\' :: 't' :: rest, acc => parseStrAux rest ('\t' :: acc)
  | '\\' :: 'r' :: rest, acc => parseStrAux rest ('\r' :: acc)
  | '\\' :: _, _ => Option.none
  | c :: rest, acc => parseStrAux rest (c :: acc)

/-- Consume a maximal run of decimal digits, extending the accumulator. -/
def parseDigits : List Char → Nat → (Nat × List Char)
  | [], acc => (acc, [])
  | c :: rest, acc =>
    if c.isDigit then parseDigits rest (acc * 10 + (c.toNat - 48))
    else (acc, c :: rest)

/-- A nonempty run of decimal digits as a natural number. -/
def parseNatTok : List Char → Option (Nat × List Char)
  | [] => Option.none
  | c :: rest =>
    if c.isDigit then some (parseDigits rest (c.toNat - 48)) else Option.none

mutual

/-- One JSON value (array, object, string, `true`/`false`/`null`, or an
integer).  Fuel bounds the recursion depth so the parser is structurally
recursive and reduces in the kernel. -/
def parseValF : Nat → List Char → Option (PyVal × List Char)
  | 0, _ => Option.none
  | Nat.succ f, cs =>
    match skipWs cs with
    | '[' :: rest => parseArrF f rest
    | '\x7b' :: rest => parseObjF f rest
    | '"' :: rest => (parseStrAux rest []).map (fun p => (PyVal.str p.1, p.2))
    | 't' :: 'r' :: 'u' :: 'e' :: rest => some (PyVal.bool true, rest)
    | 'f' :: 'a' :: 'l' :: 's' :: 'e' :: rest => some (PyVal.bool false, rest)
    | 'n' :: 'u' :: 'l' :: 'l' :: rest => some (PyVal.nullv, rest)
    | '-' :: rest => (parseNatTok rest).map (fun p => (PyVal.int (-(p.1 : Int)), p.2))
    | l => (parseNatTok l).map (fun p => (PyVal.int (p.1 : Int), p.2))

/-- Array contents after the opening bracket. -/
def parseArrF : Nat → List Char → Option (PyVal × List Char)
  | 0, _ => Option.none
  | Nat.succ f, cs =>
    match skipWs cs with
    | ']' :: rest => some (PyVal.list [], rest)
    | l =>
      (parseValF f l).bind (fun p =>
        (parseArrTailF f p.2).map (fun q => (PyVal.list (p.1 :: q.1), q.2)))

/-- Remaining array elements: a comma-separated tail closed by a bracket. -/
def parseArrTailF : Nat → List Char → Option (List PyVal × List Char)
  | 0, _ => Option.none
  | Nat.succ f, cs =>
    match skipWs cs with
    | ']' :: rest => some ([], rest)
    | ',' :: rest =>
      (parseValF f rest).bind (fun p =>
        (parseArrTailF f p.2).map (fun q => (p.1 :: q.1, q.2)))
    | _ => Option.none

/-- Object contents after the opening brace. -/
def parseObjF : Nat → List Char → Option (PyVal × List Char)
  | 0, _ => Option.none
  | Nat.succ f, cs =>
    match skipWs cs with
    | '\x7d' :: rest => some (PyVal.dict [], rest)
    | '"' :: rest =>
      (parseStrAux rest []).bind (fun k =>
        match skipWs k.2 with
        | ':' :: rest2 =>
          (parseValF f rest2).bind (fun p =>
            (parseObjTailF f p.2).map (fun q => (PyVal.dict ((k.1, p.1) :: q.1), q.2)))
        | _ => Option.none)
    | _ => Option.none

/-- Remaining object entries: a comma-separated tail closed by a brace. -/
def parseObjTailF : Nat → List Char → Option (List (String × PyVal) × List Char)
  | 0, _ => Option.none
  | Nat.succ f, cs =>
    match skipWs cs with
    | '\x7d' :: rest => some ([], rest)
    | ',' :: rest =>
      match skipWs rest with
      | '"' :: rest2 =>
        (parseStrAux rest2 []).bind (fun k =>
          match skipWs k.2 with
          | ':' :: rest3 =>
            (parseValF f rest3).bind (fun p =>
              (parseObjTailF f p.2).map (fun q => ((k.1, p.1) :: q.1, q.2)))
          | _ => Option.none)
      | _ => Option.none
    | _ => Option.none

end

/-- Model of Python `json.loads`: parse the whole string as one JSON
value, allowing surrounding whitespace; `Option.none` models the
`JSONDecodeError` the caller catches.  The model covers objects, arrays,
strings with common escapes, integers and the three literals; fractional
numbers, exponents and unicode escapes are outside the model.  The fuel
`2 * s.length + 4` exceeds the recursion depth reachable on an input of
this length, since every nesting level consumes an opening character. -/
def json_loads (s : String) : Option PyVal :=
  match parseValF (2 * s.length + 4) s.toList with
  | some p => if skipWs p.2 = [] then some p.1 else Option.none
  | Option.none => Option.none

/-! ## Key normalization (`normalize_keys`) -/

/-- Model of Python `s.lower()` (ASCII case folding). -/
def pyLower (s : String) : String := String.mk (s.toList.map Char.toLower)

/-- The `mapping` dictionary of `normalize_keys`: each of the five
canonical field names maps to itself. -/
def keyMapping : List (String × String) :=
  [("phrase", "phrase"), ("category", "category"), ("explanation", "explanation"),
   ("bias_score", "bias_score"), ("recommendation", "recommendation")]

/-- Model of `mapping.get(k.lower(), k)`. -/
def normKey (k : String) : String :=
  (List.lookup (pyLower k) keyMapping).getD k

/-- Python dictionary insertion `d[k] = v`: an existing key keeps its
position and gets the new value; a new key is appended. -/
def dictInsert (d : List (String × PyVal)) (k : String) (v : PyVal) :
    List (String × PyVal) :=
  if d.any (fun p => p.1 == k) then
    d.map (fun p => if p.1 == k then (k, v) else p)
  else d ++ [(k, v)]

/-- Model of the dict comprehension
`{mapping.get(k.lower(), k): v for k, v in item.items()}`. -/
def normalize_keys (item : List (String × PyVal)) : List (String × PyVal) :=
  item.foldl (fun acc p => dictInsert acc (normKey p.1) p.2) []

/-! ## The parsing stage of `analyze_bias`

The LLM call is external; the model takes the stripped response content
`raw_output` as its argument and performs the strict-then-lenient parse
and the normalization of the source.  `Except String` models Python
exception propagation: `Except.error` is an exception that escapes to the
caller, which the bare `except:` blocks around `json.loads` never let
happen, but which `normalize_keys` (via `.items()` on a non-dict) can
raise. -/

/-- One step of the list comprehension body `normalize_keys(item)`:
`item.items()` raises `AttributeError` when `item` is not a dict. -/
def normalizeItem : PyVal → Except String PyVal
  | PyVal.dict d => Except.ok (PyVal.dict (normalize_keys d))
  | _ => Except.error "AttributeError: no attribute items"

/-- The comprehension `[normalize_keys(item) for item in parsed]`,
evaluated left to right, propagating the first exception. -/
def normListComp : List PyVal → Except String (List PyVal)
  | [] => Except.ok []
  | it :: rest =>
    match normalizeItem it with
    | Except.ok v => (normListComp rest).map (fun vs => v :: vs)
    | Except.error e => Except.error e

/-- Normalization as a total function, for stating results on lists whose
elements are all dictionaries. -/
def normTotal : PyVal → PyVal
  | PyVal.dict d => PyVal.dict (normalize_keys d)
  | v => v

/-- The final line of `analyze_bias`:
`[normalize_keys(item) for item in parsed] if isinstance(parsed, list) else parsed`. -/
def finishParse : PyVal → Except String PyVal
  | PyVal.list items => (normListComp items).map PyVal.list
  | v => Except.ok v

/-- Model of Python `raw.find(c)`: index of the first occurrence, `-1`
when absent. -/
def pyFind (s : String) (c : Char) : Int :=
  match s.toList.findIdx? (fun d => d == c) with
  | some i => (i : Int)
  | Option.none => -1

/-- Model of Python `raw.rfind(c)`: index of the last occurrence, `-1`
when absent. -/
def pyRfind (s : String) (c : Char) : Int :=
  match s.toList.reverse.findIdx? (fun d => d == c) with
  | some i => (s.toList.length : Int) - 1 - i
  | Option.none => -1

/-- Python string slice `s[i:j]`. -/
def pyStrSlice (s : String) (i j : Int) : String :=
  String.mk (pySlice s.toList i j)

/-- The fallback substring `raw_output[start:end]` with
`start = raw_output.find("[")` and `end = raw_output.rfind("]") + 1`. -/
def bracketSub (raw : String) : String :=
  pyStrSlice raw (pyFind raw '[') (pyRfind raw ']' + 1)

/-- The error record `{"error": kind, "raw_output": raw}`. -/
def errRecord (kind raw : String) : PyVal :=
  PyVal.dict [("error", PyVal.str kind), ("raw_output", PyVal.str raw)]

/-- The parsing and normalization stage of `analyze_bias`, as a function
of the response content `raw_output`: try `json.loads` on the whole
response; on failure try the substring between the first `[` and the
last `]` (the source compares `end != -1` although `end = rfind + 1` can
never be `-1`); on failure or absent bracket return a single-element
error record.  The successful parse is then run through the
`normalize_keys` comprehension when it is a list. -/
def analyze_bias (raw : String) : Except String PyVal :=
  match json_loads raw with
  | some parsed => finishParse parsed
  | Option.none =>
    if pyFind raw '[' ≠ -1 ∧ pyRfind raw ']' + 1 ≠ -1 then
      match json_loads (bracketSub raw) with
      | some parsed => finishParse parsed
      | Option.none => Except.ok (PyVal.list [errRecord "Parse error" raw])
    else Except.ok (PyVal.list [errRecord "No JSON detected" raw])

/-! ## Relevance gate (`check_relevance` and the main gate) -/

/-- Model of Python `s.strip()`. -/
def pyStrip (s : String) : String :=
  String.mk (((s.toList.dropWhile Char.isWhitespace).reverse.dropWhile
    Char.isWhitespace).reverse)

/-- Model of Python `s.upper()` (ASCII case folding). -/
def pyUpper (s : String) : String := String.mk (s.toList.map Char.toUpper)

/-- `check_relevance` as a function of the LLM response content:
`response["message"]["content"].strip().upper()`. -/
def check_relevance (responseContent : String) : String :=
  pyUpper (pyStrip responseContent)

/-- The main gate `if relevance == "NO"`: `true` means the document is
flagged as not a vendor risk document and analysis is blocked. -/
def gateBlocks (responseContent : String) : Bool :=
  check_relevance responseContent == "NO"

/-! ## Aggregation (main loop and summary) -/

/-- Digit-list value, most significant first; fails on a non-digit. -/
def digitsVal : List Char → Nat → Option Nat
  | [], acc => some acc
  | c :: rest, acc =>
    if c.isDigit then digitsVal rest (acc * 10 + (c.toNat - 48))
    else Option.none

/-- Model of Python `int(s)` for a string argument: strip whitespace,
optional sign, then a nonempty run of decimal digits (digit-group
underscores are outside the model). -/
def pyIntOfStr (s : String) : Option Int :=
  match (pyStrip s).toList with
  | '-' :: rest =>
    if rest = [] then Option.none
    else (digitsVal rest 0).map (fun n => -(n : Int))
  | '+' :: rest =>
    if rest = [] then Option.none
    else (digitsVal rest 0).map (fun n => (n : Int))
  | rest =>
    if rest = [] then Option.none
    else (digitsVal rest 0).map (fun n => (n : Int))

/-- Model of Python `int(score)` in the `try` of the main loop. -/
def pyToInt : PyVal → Option Int
  | PyVal.int n => some n
  | PyVal.bool b => some (if b then 1 else 0)
  | PyVal.str s => pyIntOfStr s
  | _ => Option.none

/-- Model of `item.get(k, default)` for a Python dict. -/
def dictGet (d : List (String × PyVal)) (k : String) : Option PyVal :=
  (d.find? (fun p => p.1 == k)).map (fun p => p.2)

/-- Python `category != "N/A"` is false exactly when the value is the
string `"N/A"`; comparison with any non-string value is `True` in the
source and so does not exclude the item. -/
def isNAstr : PyVal → Bool
  | PyVal.str s => s == "N/A"
  | _ => false

/-- The mutable accumulators `all_scores, all_categories, followups` of
the main loop.  Categories and follow-up entries keep the raw Python
values appended by the loop (the cosmetic `f"- {...}"` formatting of
follow-ups is presentation only and not modelled). -/
structure AggState where
  all_scores : List Int
  all_categories : List PyVal
  followups : List PyVal

/-- One iteration of `for item in results:` in the main loop: an error
record only renders a diagnostic; otherwise the category and
recommendation are tallied unless they are (or default to) `"N/A"`, and
`int(score)` is appended to the score list, with conversion failures
silently dropped.  Non-dict items cannot reach this loop from
`analyze_bias` results and leave the state unchanged. -/
def processItem (st : AggState) (item : PyVal) : AggState :=
  match item with
  | PyVal.dict d =>
    if d.any (fun p => p.1 == "error") then st
    else
      let category := (dictGet d "category").getD (PyVal.str "N/A")
      let recommendation := (dictGet d "recommendation").getD (PyVal.str "N/A")
      let score := (dictGet d "bias_score").getD (PyVal.int 0)
      let st1 :=
        if isNAstr category then st
        else { st with all_categories := st.all_categories ++ [category] }
      let st2 :=
        if isNAstr recommendation then st1
        else { st1 with followups := st1.followups ++ [recommendation] }
      match pyToInt score with
      | some n => { st2 with all_scores := st2.all_scores ++ [n] }
      | Option.none => st2
  | _ => st

/-- The main loop run over the flattened list of parsed issue items,
starting from `all_scores, all_categories, followups = [], [], []`. -/
def runAgg (items : List PyVal) : AggState :=
  items.foldl processItem ⟨[], [], []⟩

/-- The summary: `sum(all_scores) / len(all_scores)` when the score list
is nonempty, and no score otherwise (the source guards with
`if all_scores:`). -/
def overallScore (st : AggState) : Option Rat :=
  if st.all_scores = [] then Option.none
  else some ((st.all_scores.sum : Rat) / (st.all_scores.length : Rat))

/-- The scores the spec says enter the average: for each non-error issue
record, `int` of its `bias_score` (default `0`) when the conversion
succeeds. -/
def convertibleScores (items : List PyVal) : List Int :=
  items.filterMap (fun item =>
    match item with
    | PyVal.dict d =>
      if d.any (fun p => p.1 == "error") then Option.none
      else pyToInt ((dictGet d "bias_score").getD (PyVal.int 0))
    | _ => Option.none)

/-- The fold step of the `normalize_keys` dict comprehension, named so the
idempotence proof can speak about the accumulator. -/
def normStep (acc : List (String × PyVal)) (p : String × PyVal) :
    List (String × PyVal) :=
  dictInsert acc (normKey p.1) p.2

/-! ## Helper lemmas: word splitting -/

theorem splitWsAux_sound : ∀ (l acc : List Char),
    (∀ c ∈ acc, c.isWhitespace = false) →
    ∀ w ∈ splitWsAux l acc, w ≠ [] ∧ ∀ c ∈ w, c.isWhitespace = false := by
  intro l
  induction l with
  | nil =>
    intro acc hacc w hw
    cases acc with
    | nil => simp [splitWsAux] at hw
    | cons a as =>
      simp only [splitWsAux, List.mem_singleton] at hw
      subst hw
      refine ⟨by simp, ?_⟩
      intro c hc
      exact hacc c (List.mem_reverse.mp hc)
  | cons c cs ih =>
    intro acc hacc w hw
    by_cases hc : c.isWhitespace
    · cases acc with
      | nil =>
        simp only [splitWsAux, if_pos hc] at hw
        exact ih [] (by simp) w hw
      | cons a as =>
        simp only [splitWsAux, if_pos hc, List.mem_cons] at hw
        rcases hw with h | h
        · subst h
          refine ⟨by simp, ?_⟩
          intro d hd
          exact hacc d (List.mem_reverse.mp hd)
        · exact ih [] (by simp) w h
    · simp only [splitWsAux, if_neg hc] at hw
      refine ih (c :: acc) ?_ w hw
      intro d hd
      rcases List.mem_cons.mp hd with h | h
      · subst h; simpa using hc
      · exact hacc d h

theorem splitWs_sound (l : List Char) :
    ∀ w ∈ splitWs l, w ≠ [] ∧ ∀ c ∈ w, c.isWhitespace = false :=
  splitWsAux_sound l [] (by simp)

theorem splitWsAux_word : ∀ (w t acc : List Char),
    (∀ c ∈ w, c.isWhitespace = false) →
    splitWsAux (w ++ t) acc = splitWsAux t (w.reverse ++ acc) := by
  intro w
  induction w with
  | nil => intro t acc _; simp
  | cons c cs ih =>
    intro t acc h
    have hc : c.isWhitespace = false := h c (by simp)
    have step : splitWsAux (c :: (cs ++ t)) acc = splitWsAux (cs ++ t) (c :: acc) := by
      simp [splitWsAux, hc]
    calc splitWsAux ((c :: cs) ++ t) acc
        = splitWsAux (cs ++ t) (c :: acc) := step
      _ = splitWsAux t (cs.reverse ++ (c :: acc)) :=
          ih t (c :: acc) (fun d hd => h d (List.mem_cons_of_mem c hd))
      _ = splitWsAux t ((c :: cs).reverse ++ acc) := by
          simp

theorem splitWs_joinWords : ∀ (ws : List (List Char)),
    (∀ w ∈ ws, w ≠ [] ∧ ∀ c ∈ w, c.isWhitespace = false) →
    splitWs (joinWords ws) = ws := by
  intro ws
  induction ws with
  | nil => intro _; rfl
  | cons w rest ih =>
    intro h
    obtain ⟨hw, hwc⟩ := h w (List.mem_cons_self w rest)
    obtain ⟨a, as, hrev⟩ := List.exists_cons_of_ne_nil
      (fun he => hw (by simpa using congrArg List.reverse he) : w.reverse ≠ [])
    cases rest with
    | nil =>
      show splitWsAux (joinWords [w]) [] = [w]
      have : joinWords [w] = w ++ [] := by simp [joinWords]
      rw [this, splitWsAux_word w [] [] hwc, List.append_nil, hrev]
      show [(a :: as).reverse] = [w]
      rw [← hrev, List.reverse_reverse]
    | cons v rest2 =>
      show splitWsAux (joinWords (w :: v :: rest2)) [] = w :: v :: rest2
      have hjw : joinWords (w :: v :: rest2) = w ++ ' ' :: joinWords (v :: rest2) := rfl
      rw [hjw, splitWsAux_word w (' ' :: joinWords (v :: rest2)) [] hwc,
        List.append_nil, hrev]
      have hsp : (' ' : Char).isWhitespace = true := by decide
      show splitWsAux (' ' :: joinWords (v :: rest2)) (a :: as) = w :: v :: rest2
      simp only [splitWsAux, if_pos hsp]
      rw [← hrev, List.reverse_reverse]
      exact congrArg (w :: ·) (ih (fun u hu => h u (List.mem_cons_of_mem w hu)))

/-! ## Helper lemmas: slices and the chunk loop -/

theorem pySlice_nonneg {α : Type} (l : List α) (i c : Int) (hi : 0 ≤ i) (hc : 0 ≤ c) :
    pySlice l i (i + c) = (l.drop i.toNat).take c.toNat := by
  unfold pySlice sliceIdx
  have h1 : ¬ i < 0 := by omega
  have h2 : ¬ i + c < 0 := by omega
  simp only [if_neg h1, if_neg h2]
  have htn : (i + c).toNat = i.toNat + c.toNat := by omega
  by_cases hle : i.toNat ≤ l.length
  · have hmin : min i.toNat l.length = i.toNat := by omega
    rw [hmin, htn]
    rcases Nat.le_total (i.toNat + c.toNat) l.length with h | h
    · have hm2 : min (i.toNat + c.toNat) l.length = i.toNat + c.toNat := by omega
      rw [hm2]
      congr 1
      omega
    · have hm2 : min (i.toNat + c.toNat) l.length = l.length := by omega
      rw [hm2]
      have hlen : (l.drop i.toNat).length = l.length - i.toNat := by simp
      rw [List.take_of_length_le (le_of_eq_of_le hlen (by omega)),
        List.take_of_length_le (le_of_eq_of_le hlen (by omega))]
  · have hmin : min i.toNat l.length = l.length := by omega
    rw [hmin]
    have hd2 : l.drop i.toNat = [] := List.drop_eq_nil_of_le (by omega)
    simp [hd2]

theorem chunkLoop_stuck (words : List (List Char)) (cs ov : Int)
    (hcfg : cs ≤ ov) (hw : words ≠ []) :
    ∀ (fuel : Nat) (start : Int), start ≤ 0 →
      chunkLoop words cs ov fuel start = Option.none := by
  intro fuel
  induction fuel with
  | zero =>
    intro start hst
    have hlen : 0 < words.length := List.length_pos.mpr hw
    have : start < (words.length : Int) := by
      have : (0 : Int) < (words.length : Int) := by exact_mod_cast hlen
      omega
    simp [chunkLoop, this]
  | succ f ih =>
    intro start hst
    have hlen : 0 < words.length := List.length_pos.mpr hw
    have hcond : start < (words.length : Int) := by
      have : (0 : Int) < (words.length : Int) := by exact_mod_cast hlen
      omega
    have hrec := ih (start + (cs - ov)) (by omega)
    simp [chunkLoop, hcond, hrec]

theorem chunkLoop_sound (words : List (List Char)) (cs ov : Int)
    (hov : 0 ≤ ov) (hlt : ov < cs) :
    ∀ (fuel : Nat) (st : Nat), words.length - st ≤ fuel →
      ∃ segs, chunkLoop words cs ov fuel (st : Int) = some segs ∧
        (segs.map (List.drop ov.toNat)).flatten = words.drop (st + ov.toNat) ∧
        ∀ s ∈ segs, ∀ w ∈ s, w ∈ words := by
  intro fuel
  induction fuel with
  | zero =>
    intro st hf
    have hge : words.length ≤ st := by omega
    have hcond : ¬ ((st : Int) < (words.length : Int)) := by
      omega
    refine ⟨[], by simp [chunkLoop, hcond], ?_, by simp⟩
    simp [List.drop_eq_nil_of_le (le_trans hge (Nat.le_add_right st ov.toNat))]
  | succ f ih =>
    intro st hf
    by_cases hlt2 : st < words.length
    · have hcond : (st : Int) < (words.length : Int) := by exact_mod_cast hlt2
      have hstep : (0 : Int) ≤ cs - ov := by omega
      have hstep1 : 1 ≤ (cs - ov).toNat := by omega
      have hcast : (st : Int) + (cs - ov) = ((st + (cs - ov).toNat : Nat) : Int) := by
        push_cast [Int.toNat_of_nonneg hstep]
        ring
      obtain ⟨segs', heq', hjoin', hmem'⟩ :=
        ih (st + (cs - ov).toNat) (by omega)
      have hslice : pySlice words (st : Int) ((st : Int) + cs) =
          (words.drop st).take cs.toNat := by
        have := pySlice_nonneg words (st : Int) cs (by positivity) (by omega)
        simpa using this
      refine ⟨(words.drop st).take cs.toNat :: segs', ?_, ?_, ?_⟩
      · simp only [chunkLoop, if_pos hcond, hcast, heq', hslice]
        rfl
      · simp only [List.map_cons, List.flatten_cons, hjoin']
        have harith : st + (cs - ov).toNat + ov.toNat = st + cs.toNat := by omega
        rw [harith]
        have hd : List.drop ov.toNat ((words.drop st).take cs.toNat) =
            (words.drop (st + ov.toNat)).take (cs.toNat - ov.toNat) := by
          rw [List.drop_take]
          congr 1
          rw [List.drop_drop]
        rw [hd]
        have hd2 : words.drop (st + cs.toNat) =
            (words.drop (st + ov.toNat)).drop (cs.toNat - ov.toNat) := by
          rw [List.drop_drop]
          congr 1
          omega
        rw [hd2, List.take_append_drop]
      · intro s hs w hw
        rcases List.mem_cons.mp hs with h | h
        · exact List.drop_subset st words (List.take_subset _ _ (h ▸ hw))
        · exact hmem' s h w hw
    · have hcond : ¬ ((st : Int) < (words.length : Int)) := by
        omega
      refine ⟨[], by simp [chunkLoop, hcond], ?_, by simp⟩
      simp [List.drop_eq_nil_of_le
        (le_trans (by omega : words.length ≤ st) (Nat.le_add_right st ov.toNat))]

theorem chunk_text_sound (text : String) (cs ov : Int) (hov : 0 ≤ ov) (hlt : ov < cs) :
    ∃ segs : List (List (List Char)),
      chunkLoop (splitWs text.toList) cs ov (splitWs text.toList).length 0 = some segs ∧
      reassemble ov.toNat segs = splitWs text.toList ∧
      ∀ s ∈ segs, ∀ w ∈ s, w ∈ splitWs text.toList := by
  set words := splitWs text.toList with hwords
  cases hn : words.length with
  | zero =>
    have hnil : words = [] := List.length_eq_zero.mp hn
    have hcond : ¬ ((0 : Int) < (words.length : Int)) := by
      rw [hn]
      omega
    refine ⟨[], ?_, by simp [reassemble, hnil], by simp⟩
    simp [chunkLoop, hcond]
  | succ m =>
    have h0 : (0 : Int) < (words.length : Int) := by
      rw [hn]
      omega
    have hstep : (0 : Int) ≤ cs - ov := by omega
    have hcast : (0 : Int) + (cs - ov) = (((cs - ov).toNat : Nat) : Int) := by
      rw [Int.toNat_of_nonneg hstep]
      ring
    obtain ⟨segs', heq', hjoin', hmem'⟩ :=
      chunkLoop_sound words cs ov hov hlt m (cs - ov).toNat (by omega)
    have hslice : pySlice words (0 : Int) ((0 : Int) + cs) =
        words.take cs.toNat := by
      have := pySlice_nonneg words (0 : Int) cs (by omega) (by omega)
      simpa using this
    refine ⟨words.take cs.toNat :: segs', ?_, ?_, ?_⟩
    · simp only [chunkLoop, if_pos h0, hcast, heq', hslice]
      rfl
    · simp only [reassemble, hjoin']
      have harith : (cs - ov).toNat + ov.toNat = cs.toNat := by omega
      rw [harith, List.take_append_drop]
    · intro s hs w hw
      rcases List.mem_cons.mp hs with h | h
      · exact List.take_subset _ _ (h ▸ hw)
      · exact hmem' s h w hw

/-! ## Helper lemmas: find and rfind -/

theorem findIdxQ_eq_none (l : List Char) (c : Char) (h : c ∉ l) :
    l.findIdx? (fun d => d == c) = Option.none := by
  induction l with
  | nil => rfl
  | cons a as ih =>
    have h1 : ¬ (a == c) = true := by
      simp only [beq_iff_eq]
      exact fun he => h (he ▸ List.mem_cons_self a as)
    have h2 : as.findIdx? (fun d => d == c) = Option.none :=
      ih (fun hm => h (List.mem_cons_of_mem a hm))
    simp [List.findIdx?_cons, h1, h2, Option.map_eq_none]

theorem pyFind_eq_neg_one (s : String) (c : Char) (h : c ∉ s.toList) :
    pyFind s c = -1 := by
  unfold pyFind
  rw [findIdxQ_eq_none s.toList c h]

theorem findIdxQ_aux_lt {α : Type} (p : α → Bool) :
    ∀ (l : List α) (st i : Nat), l.findIdx? p st = some i → i < st + l.length := by
  intro l
  induction l with
  | nil => intro st i h; exact absurd h (by simp)
  | cons a as ih =>
    intro st i h
    rw [List.findIdx?_cons] at h
    by_cases hp : p a
    · rw [if_pos hp] at h
      cases h
      simp
    · rw [if_neg hp] at h
      have := ih (st + 1) i h
      simp only [List.length_cons]
      omega

theorem findIdxQ_lt_length {α : Type} (p : α → Bool) (l : List α) (i : Nat)
    (h : l.findIdx? p = some i) : i < l.length := by
  have := findIdxQ_aux_lt p l 0 i h
  omega
theorem pyRfind_ge (s : String) (c : Char) : -1 ≤ pyRfind s c := by
  unfold pyRfind
  split
  · next i hf =>
      have hlt : i < s.toList.reverse.length := findIdxQ_lt_length _ _ _ hf
      rw [List.length_reverse] at hlt
      omega
  · omega

/-! ## Helper lemmas: key normalization -/

theorem lookup_keyMapping_eq (t : String) :
    List.lookup t keyMapping =
      if t = "phrase" ∨ t = "category" ∨ t = "explanation" ∨ t = "bias_score" ∨
          t = "recommendation" then some t else Option.none := by
  by_cases h1 : t = "phrase"
  · subst h1; rfl
  by_cases h2 : t = "category"
  · subst h2; rfl
  by_cases h3 : t = "explanation"
  · subst h3; rfl
  by_cases h4 : t = "bias_score"
  · subst h4; rfl
  by_cases h5 : t = "recommendation"
  · subst h5; rfl
  have hnone : List.lookup t keyMapping = Option.none := by
    have b1 : (t == "phrase") = false := beq_eq_false_iff_ne.mpr h1
    have b2 : (t == "category") = false := beq_eq_false_iff_ne.mpr h2
    have b3 : (t == "explanation") = false := beq_eq_false_iff_ne.mpr h3
    have b4 : (t == "bias_score") = false := beq_eq_false_iff_ne.mpr h4
    have b5 : (t == "recommendation") = false := beq_eq_false_iff_ne.mpr h5
    simp [keyMapping, List.lookup, b1, b2, b3, b4, b5]
  rw [hnone, if_neg]
  intro h
  rcases h with h | h | h | h | h <;> [exact h1 h; exact h2 h; exact h3 h;
    exact h4 h; exact h5 h]

theorem normKey_eq (k : String) :
    normKey k =
      if pyLower k = "phrase" ∨ pyLower k = "category" ∨ pyLower k = "explanation" ∨
          pyLower k = "bias_score" ∨ pyLower k = "recommendation" then pyLower k
      else k := by
  unfold normKey
  rw [lookup_keyMapping_eq (pyLower k)]
  split <;> rfl

theorem normKey_idem (k : String) : normKey (normKey k) = normKey k := by
  rw [normKey_eq k]
  split
  · next h =>
    rcases h with h | h | h | h | h <;> rw [h] <;> rfl
  · next h =>
    rw [normKey_eq k, if_neg h]

theorem dictInsert_keys_present (acc : List (String × PyVal)) (k : String) (v : PyVal)
    (h : acc.any (fun p => p.1 == k) = true) :
    (dictInsert acc k v).map Prod.fst = acc.map Prod.fst := by
  unfold dictInsert
  rw [if_pos h, List.map_map]
  apply List.map_congr_left
  intro p _
  by_cases hpk : (p.1 == k) = true
  · simp only [Function.comp_apply, if_pos hpk]
    exact (beq_iff_eq.mp hpk).symm
  · simp only [Function.comp_apply, if_neg hpk]

theorem dictInsert_mem_present (acc : List (String × PyVal)) (k : String) (v : PyVal)
    (h : acc.any (fun p => p.1 == k) = true) :
    ∀ q ∈ dictInsert acc k v, q.1 = k ∨ q ∈ acc := by
  unfold dictInsert
  rw [if_pos h]
  intro q hq
  obtain ⟨p, hp, hpq⟩ := List.mem_map.mp hq
  by_cases hpk : (p.1 == k) = true
  · rw [if_pos hpk] at hpq
    left
    rw [← hpq]
  · rw [if_neg hpk] at hpq
    right
    rw [← hpq]
    exact hp

theorem dictInsert_absent (acc : List (String × PyVal)) (k : String) (v : PyVal)
    (h : acc.any (fun p => p.1 == k) = false) :
    dictInsert acc k v = acc ++ [(k, v)] := by
  unfold dictInsert
  rw [if_neg (by rw [h]; exact Bool.false_ne_true)]

theorem normalize_keys_eq_foldl (d : List (String × PyVal)) :
    normalize_keys d = d.foldl normStep [] := rfl

theorem normStep_inv (acc : List (String × PyVal)) (p : String × PyVal)
    (hfix : ∀ q ∈ acc, normKey q.1 = q.1) (hnd : (acc.map Prod.fst).Nodup) :
    (∀ q ∈ normStep acc p, normKey q.1 = q.1) ∧
      ((normStep acc p).map Prod.fst).Nodup := by
  unfold normStep
  by_cases h : acc.any (fun q => q.1 == normKey p.1) = true
  · constructor
    · intro q hq
      rcases dictInsert_mem_present acc (normKey p.1) p.2 h q hq with h1 | h1
      · rw [h1]
        exact normKey_idem p.1
      · exact hfix q h1
    · rw [dictInsert_keys_present acc (normKey p.1) p.2 h]
      exact hnd
  · have h' : acc.any (fun q => q.1 == normKey p.1) = false :=
      Bool.eq_false_iff.mpr h
    rw [dictInsert_absent acc (normKey p.1) p.2 h']
    have hnotin : normKey p.1 ∉ acc.map Prod.fst := by
      intro hmem
      obtain ⟨q, hq, hq1⟩ := List.mem_map.mp hmem
      have : acc.any (fun q => q.1 == normKey p.1) = true :=
        List.any_eq_true.mpr ⟨q, hq, beq_iff_eq.mpr hq1⟩
      rw [this] at h'
      exact Bool.noConfusion h'
    constructor
    · intro q hq
      rcases List.mem_append.mp hq with h1 | h1
      · exact hfix q h1
      · rw [List.mem_singleton.mp h1]
        exact normKey_idem p.1
    · rw [List.map_append]
      exact List.Nodup.append hnd (by simp) (by
        intro a ha hb
        simp only [List.map_cons, List.map_nil, List.mem_singleton] at hb
        exact hnotin (hb ▸ ha))

theorem foldl_normStep_inv (d : List (String × PyVal)) :
    ∀ acc : List (String × PyVal),
      (∀ q ∈ acc, normKey q.1 = q.1) → (acc.map Prod.fst).Nodup →
      (∀ q ∈ d.foldl normStep acc, normKey q.1 = q.1) ∧
        ((d.foldl normStep acc).map Prod.fst).Nodup := by
  induction d with
  | nil => intro acc hfix hnd; exact ⟨hfix, hnd⟩
  | cons p rest ih =>
    intro acc hfix hnd
    obtain ⟨hfix', hnd'⟩ := normStep_inv acc p hfix hnd
    exact ih (normStep acc p) hfix' hnd'

theorem foldl_normStep_fix (d : List (String × PyVal)) :
    ∀ acc : List (String × PyVal),
      (∀ q ∈ d, normKey q.1 = q.1) →
      ((acc.map Prod.fst) ++ (d.map Prod.fst)).Nodup →
      d.foldl normStep acc = acc ++ d := by
  induction d with
  | nil => intro acc _ _; simp
  | cons q rest ih =>
    intro acc hfix hnd
    have hq : normKey q.1 = q.1 := hfix q (List.mem_cons_self q rest)
    have hq_notin : q.1 ∉ acc.map Prod.fst := by
      intro hmem
      have hdisj := (List.nodup_append.mp hnd).2.2
      exact hdisj hmem (by simp)
    have hany : acc.any (fun p => p.1 == q.1) = false := by
      rw [List.any_eq_false]
      intro p hp
      simp only [beq_iff_eq]
      intro he
      exact hq_notin (List.mem_map.mpr ⟨p, hp, he⟩)
    have hstep : normStep acc q = acc ++ [q] := by
      unfold normStep
      rw [hq, dictInsert_absent acc q.1 q.2 hany]
    have hfix' : ∀ p ∈ rest, normKey p.1 = p.1 :=
      fun p hp => hfix p (List.mem_cons_of_mem q hp)
    have hnd' : ((acc ++ [q]).map Prod.fst ++ rest.map Prod.fst).Nodup := by
      simp only [List.map_append, List.map_cons, List.map_nil, List.append_assoc,
        List.singleton_append]
      simpa using hnd
    calc (q :: rest).foldl normStep acc
        = rest.foldl normStep (normStep acc q) := rfl
      _ = rest.foldl normStep (acc ++ [q]) := by rw [hstep]
      _ = (acc ++ [q]) ++ rest := ih (acc ++ [q]) hfix' hnd'
      _ = acc ++ q :: rest := by simp

theorem normListComp_ok (items : List PyVal)
    (h : ∀ it ∈ items, ∃ d, it = PyVal.dict d) :
    normListComp items = Except.ok (items.map normTotal) := by
  induction items with
  | nil => rfl
  | cons it rest ih =>
    obtain ⟨d, hd⟩ := h it (List.mem_cons_self it rest)
    subst hd
    have hrest := ih (fun u hu => h u (List.mem_cons_of_mem _ hu))
    simp [normListComp, normalizeItem, normTotal, hrest, Except.map]

/-! ## Helper lemmas: aggregation -/

theorem processItem_scores (st : AggState) (item : PyVal) :
    (processItem st item).all_scores =
      st.all_scores ++
        (match item with
          | PyVal.dict d =>
            if d.any (fun p => p.1 == "error") then Option.none
            else pyToInt ((dictGet d "bias_score").getD (PyVal.int 0))
          | _ => Option.none).toList := by
  cases item with
  | str s => simp [processItem]
  | int n => simp [processItem]
  | bool b => simp [processItem]
  | nullv => simp [processItem]
  | list l => simp [processItem]
  | dict d =>
    by_cases herr : d.any (fun p => p.1 == "error") = true
    · simp [processItem, herr]
    · rw [Bool.not_eq_true] at herr
      cases hs : pyToInt ((dictGet d "bias_score").getD (PyVal.int 0)) with
      | none =>
        simp only [processItem, herr, Bool.false_eq_true, if_false, hs]
        split <;> split <;> simp
      | some n =>
        simp only [processItem, herr, Bool.false_eq_true, if_false, hs]
        split <;> split <;> simp

theorem foldl_scores (items : List PyVal) :
    ∀ st : AggState,
      (items.foldl processItem st).all_scores =
        st.all_scores ++ convertibleScores items := by
  induction items with
  | nil => intro st; simp [convertibleScores]
  | cons item rest ih =>
    intro st
    have hstep := processItem_scores st item
    calc ((item :: rest).foldl processItem st).all_scores
        = (rest.foldl processItem (processItem st item)).all_scores := rfl
      _ = (processItem st item).all_scores ++ convertibleScores rest := ih _
      _ = st.all_scores ++ convertibleScores (item :: rest) := by
          rw [hstep, List.append_assoc]
          congr 1
          cases item with
          | dict d =>
            simp only [convertibleScores, List.filterMap_cons]
            split
            · simp_all
            · cases pyToInt ((dictGet d "bias_score").getD (PyVal.int 0)) <;> simp
          | str s => simp [convertibleScores]
          | int n => simp [convertibleScores]
          | bool b => simp [convertibleScores]
          | nullv => simp [convertibleScores]
          | list l => simp [convertibleScores]

theorem runAgg_scores (items : List PyVal) :
    (runAgg items).all_scores = convertibleScores items := by
  have := foldl_scores items ⟨[], [], []⟩
  simpa [runAgg] using this

/-! ## Claim theorems -/

/-- C1: contrary to the claim, `chunk_text` does not fail fast with a
configuration error when `chunk_size <= overlap` — there is no validation
anywhere in the function.  Instead the advance step `chunk_size - overlap`
is non-positive, `start` never reaches the word count, and the loop runs
forever: for every fuel bound the loop is still running (`Option.none`),
for any text with a nonempty word list.  This contradicts the spec, which
requires the invalid configuration to be rejected. -/
theorem chunk_text_loops_forever_when_overlap_ge_chunk_size
    (text : String) (cs ov : Int) (fuel : Nat)
    (hcfg : cs ≤ ov) (hw : splitWs text.toList ≠ []) :
    chunk_text text cs ov fuel = Option.none := by
  unfold chunk_text
  rw [chunkLoop_stuck (splitWs text.toList) cs ov hcfg hw fuel 0 (le_refl 0)]
  rfl

/-- C1 witness: the spec's own test case `chunk_size = 50, overlap = 50`
on a concrete nonempty document never exits the loop. -/
theorem chunk_text_loops_forever_witness :
    (50 : Int) ≤ (50 : Int) ∧ splitWs "hello world".toList ≠ [] ∧
      chunk_text "hello world" 50 50 1000 = Option.none :=
  ⟨by decide, by decide,
    chunk_text_loops_forever_when_overlap_ge_chunk_size "hello world" 50 50 1000
      (by decide) (by decide)⟩

/-- C3: for every text and every configuration with
`chunk_size > overlap ≥ 0`, `chunk_text` terminates (with fuel equal to
the word count) and concatenating the word sequences of its segments,
with each segment's first `overlap` words removed except for the first
segment, reconstructs the full whitespace-split word sequence of the
text, in order and with no gaps. -/
theorem chunk_text_reassembles_words (text : String) (cs ov : Int)
    (hov : 0 ≤ ov) (hlt : ov < cs) :
    ∃ segs : List String,
      chunk_text text cs ov (splitWs text.toList).length = some segs ∧
      reassemble ov.toNat (segs.map (fun s => splitWs s.toList)) =
        splitWs text.toList := by
  obtain ⟨wsegs, heq, hre, hmem⟩ := chunk_text_sound text cs ov hov hlt
  refine ⟨wsegs.map (fun ws => String.mk (joinWords ws)), ?_, ?_⟩
  · unfold chunk_text
    rw [heq]
    rfl
  · rw [List.map_map]
    have hcong : wsegs.map
        ((fun s => splitWs s.toList) ∘ (fun ws => String.mk (joinWords ws))) =
        wsegs.map id := by
      apply List.map_congr_left
      intro ws hws
      show splitWs ((String.mk (joinWords ws)).toList) = ws
      have htl : (String.mk (joinWords ws)).toList = joinWords ws := rfl
      rw [htl]
      exact splitWs_joinWords ws
        (fun w hw => splitWs_sound text.toList w (hmem ws hws w hw))
    rw [hcong, List.map_id]
    exact hre

/-- C3 witness: `chunk_text "a b c d e" 2 1` reassembles to the original
word sequence. -/
theorem chunk_text_reassembles_words_witness :
    (0 : Int) ≤ 1 ∧ (1 : Int) < 2 ∧
      (∃ segs : List String,
        chunk_text "a b c d e" 2 1 (splitWs "a b c d e".toList).length = some segs ∧
        reassemble (1 : Int).toNat (segs.map (fun s => splitWs s.toList)) =
          splitWs "a b c d e".toList) :=
  ⟨by decide, by decide,
    chunk_text_reassembles_words "a b c d e" 2 1 (by decide) (by decide)⟩

/-- C2 counterexample: the claim that the parsing and normalization stage
never raises is false.  The response `"[1, 2]"` is valid JSON, so the
strict parse succeeds with a list of integers, and the normalization
comprehension then calls `.items()` on the integer `1`, raising an
`AttributeError` that propagates to the caller. -/
theorem analyze_bias_raises_on_int_array :
    analyze_bias "[1, 2]" = Except.error "AttributeError: no attribute items" := rfl

/-- C2 amended: the parsing stage itself never raises — every parse
failure is converted into an error record — and the stage as a whole
returns a value whenever every element of the parsed JSON array (from
either the strict parse or the bracket fallback) is an object.  Only a
parsed array containing a non-object element makes normalization raise. -/
theorem analyze_bias_total_on_object_arrays (raw : String)
    (h1 : ∀ items, json_loads raw = some (PyVal.list items) →
      ∀ it ∈ items, ∃ d, it = PyVal.dict d)
    (h2 : ∀ items, json_loads (bracketSub raw) = some (PyVal.list items) →
      ∀ it ∈ items, ∃ d, it = PyVal.dict d) :
    ∃ v, analyze_bias raw = Except.ok v := by
  unfold analyze_bias
  cases hp : json_loads raw with
  | some parsed =>
    cases parsed with
    | list items =>
      refine ⟨PyVal.list (items.map normTotal), ?_⟩
      simp [finishParse, normListComp_ok items (h1 items hp), Except.map]
    | str s => exact ⟨_, rfl⟩
    | int n => exact ⟨_, rfl⟩
    | bool b => exact ⟨_, rfl⟩
    | nullv => exact ⟨_, rfl⟩
    | dict d => exact ⟨_, rfl⟩
  | none =>
    by_cases hb : pyFind raw '[' ≠ -1 ∧ pyRfind raw ']' + 1 ≠ -1
    · rw [if_pos hb]
      cases hp2 : json_loads (bracketSub raw) with
      | some parsed =>
        cases parsed with
        | list items =>
          refine ⟨PyVal.list (items.map normTotal), ?_⟩
          simp [finishParse, normListComp_ok items (h2 items hp2), Except.map]
        | str s => exact ⟨_, rfl⟩
        | int n => exact ⟨_, rfl⟩
        | bool b => exact ⟨_, rfl⟩
        | nullv => exact ⟨_, rfl⟩
        | dict d => exact ⟨_, rfl⟩
      | none => exact ⟨_, rfl⟩
    · rw [if_neg hb]
      exact ⟨_, rfl⟩

/-- C2 amended witness: on a response that parses in neither attempt the
stage returns an error-record value without raising. -/
theorem analyze_bias_total_witness :
    ∃ v, analyze_bias "gibberish" = Except.ok v :=
  analyze_bias_total_on_object_arrays "gibberish"
    (fun _ h => Option.noConfusion h)
    (fun _ h => Option.noConfusion h)

/-- C4: for every response containing neither `[` nor `]` that the JSON
parse rejects, `analyze_bias` returns exactly one error record carrying
the raw response text, and the main loop treats that record as a
displayed diagnostic: the aggregation state passes through it unchanged,
so processing of the remaining selected segments continues. -/
theorem analyze_bias_no_brackets_single_error_record (raw : String)
    (hjson : json_loads raw = Option.none)
    (hlb : '[' ∉ raw.toList) (_hrb : ']' ∉ raw.toList) :
    analyze_bias raw = Except.ok (PyVal.list [errRecord "No JSON detected" raw]) ∧
      ∀ st : AggState, processItem st (errRecord "No JSON detected" raw) = st := by
  constructor
  · unfold analyze_bias
    rw [hjson]
    have hfind : pyFind raw '[' = -1 := pyFind_eq_neg_one raw '[' hlb
    rw [if_neg (fun hc => hc.1 hfind)]
  · intro st
    rfl

/-- C4 witness: the spec's malformed response example (no brackets, not
JSON) yields the single `No JSON detected` record and leaves the
aggregation state untouched. -/
theorem analyze_bias_no_brackets_witness :
    json_loads "Sorry, I cannot help." = Option.none ∧
      analyze_bias "Sorry, I cannot help." =
        Except.ok (PyVal.list [errRecord "No JSON detected" "Sorry, I cannot help."]) ∧
      processItem ⟨[], [], []⟩ (errRecord "No JSON detected" "Sorry, I cannot help.") =
        ⟨[], [], []⟩ :=
  ⟨rfl,
   (analyze_bias_no_brackets_single_error_record "Sorry, I cannot help." rfl
     (by decide) (by decide)).1,
   (analyze_bias_no_brackets_single_error_record "Sorry, I cannot help." rfl
     (by decide) (by decide)).2 ⟨[], [], []⟩⟩

/-- C5: for every response that is not valid JSON as a whole but whose
substring from the first `[` to the last `]` parses as a JSON array of
objects, `analyze_bias` extracts that substring, parses it, and returns
the decoded issue list with every record's keys normalized. -/
theorem analyze_bias_bracket_fallback (raw : String) (items : List PyVal)
    (hjson : json_loads raw = Option.none)
    (hfind : pyFind raw '[' ≠ -1)
    (hsub : json_loads (bracketSub raw) = some (PyVal.list items))
    (hdict : ∀ it ∈ items, ∃ d, it = PyVal.dict d) :
    analyze_bias raw = Except.ok (PyVal.list (items.map normTotal)) := by
  unfold analyze_bias
  rw [hjson]
  have hrf : pyRfind raw ']' + 1 ≠ -1 := by
    have := pyRfind_ge raw ']'
    omega
  rw [if_pos ⟨hfind, hrf⟩, hsub]
  simp [finishParse, normListComp_ok items hdict, Except.map]

set_option maxRecDepth 400000 in
/-- C5 witness: the spec's example — a valid issue array surrounded by
prose — is extracted and parsed by the bracket fallback, with keys
normalized. -/
theorem analyze_bias_bracket_fallback_witness :
    json_loads "Here you go: [\x7b\"phrase\":\"a\",\"category\":\"Deflection\",\"bias_score\":40,\"explanation\":\"e\",\"recommendation\":\"r\"\x7d] Hope this helps!" = Option.none ∧
      analyze_bias "Here you go: [\x7b\"phrase\":\"a\",\"category\":\"Deflection\",\"bias_score\":40,\"explanation\":\"e\",\"recommendation\":\"r\"\x7d] Hope this helps!" =
        Except.ok (PyVal.list ([PyVal.dict [("phrase", PyVal.str "a"),
          ("category", PyVal.str "Deflection"), ("bias_score", PyVal.int 40),
          ("explanation", PyVal.str "e"), ("recommendation", PyVal.str "r")]].map
            normTotal)) :=
  ⟨rfl,
   analyze_bias_bracket_fallback
     "Here you go: [\x7b\"phrase\":\"a\",\"category\":\"Deflection\",\"bias_score\":40,\"explanation\":\"e\",\"recommendation\":\"r\"\x7d] Hope this helps!"
     [PyVal.dict [("phrase", PyVal.str "a"), ("category", PyVal.str "Deflection"),
       ("bias_score", PyVal.int 40), ("explanation", PyVal.str "e"),
       ("recommendation", PyVal.str "r")]]
     rfl (by decide) rfl
     (fun it h => ⟨_, List.mem_singleton.mp h⟩)⟩

/-- C6: the relevance gate blocks analysis if and only if the model
response, stripped of surrounding whitespace and upper-cased, equals
`"NO"` exactly; every other response — including ambiguous, malformed or
merely decorated refusals — is treated as affirmative relevance. -/
theorem relevance_gate_blocks_iff_stripped_upper_no :
    (∀ resp : String, gateBlocks resp = true ↔
      String.mk ((((resp.toList.dropWhile Char.isWhitespace).reverse.dropWhile
        Char.isWhitespace).reverse).map Char.toUpper) = "NO") ∧
    gateBlocks " no\n" = true ∧ gateBlocks "NO" = true ∧
    gateBlocks "NO." = false ∧ gateBlocks "Sorry, I cannot tell." = false ∧
    gateBlocks "yes" = false := by
  refine ⟨?_, rfl, rfl, rfl, rfl, rfl⟩
  intro resp
  show (check_relevance resp == "NO") = true ↔ _
  rw [beq_iff_eq]
  exact Iff.rfl

/-- C7: the overall score is the arithmetic mean of exactly the
`bias_score` values that convert to an integer; records whose score fails
integer conversion are silently skipped, and no overall score is produced
when the score list is empty.  The spec's example — scores 10, 20 and
`"bad"` — averages to 15, not 10. -/
theorem overall_score_is_mean_of_convertible_scores :
    (∀ items : List PyVal,
      (runAgg items).all_scores = convertibleScores items ∧
      overallScore (runAgg items) =
        (if convertibleScores items = [] then Option.none
         else some (((convertibleScores items).sum : Rat) /
           ((convertibleScores items).length : Rat)))) ∧
    overallScore (runAgg [PyVal.dict [("bias_score", PyVal.int 10)],
      PyVal.dict [("bias_score", PyVal.int 20)],
      PyVal.dict [("bias_score", PyVal.str "bad")]]) = some 15 ∧
    overallScore (runAgg []) = Option.none := by
  refine ⟨?_, ?_, rfl⟩
  · intro items
    have h := runAgg_scores items
    refine ⟨h, ?_⟩
    unfold overallScore
    rw [h]
  · have hsc : (runAgg [PyVal.dict [("bias_score", PyVal.int 10)],
        PyVal.dict [("bias_score", PyVal.int 20)],
        PyVal.dict [("bias_score", PyVal.str "bad")]]).all_scores = [10, 20] := rfl
    unfold overallScore
    rw [hsc, if_neg (by simp : ¬ ([10, 20] : List Int) = [])]
    norm_num

/-- C8: `normalize_keys` is idempotent on every issue record, including
records with unknown keys; each key is matched case-insensitively against
the five canonical field names and unrecognized keys pass through
unchanged. -/
theorem normalize_keys_idempotent :
    (∀ d : List (String × PyVal),
      normalize_keys (normalize_keys d) = normalize_keys d) ∧
    (∀ k : String,
      ((pyLower k = "phrase" ∨ pyLower k = "category" ∨ pyLower k = "explanation" ∨
        pyLower k = "bias_score" ∨ pyLower k = "recommendation") →
          normKey k = pyLower k) ∧
      (¬ (pyLower k = "phrase" ∨ pyLower k = "category" ∨ pyLower k = "explanation" ∨
        pyLower k = "bias_score" ∨ pyLower k = "recommendation") →
          normKey k = k)) := by
  constructor
  · intro d
    obtain ⟨hfix, hnd⟩ := foldl_normStep_inv d [] (by simp) (by simp)
    have hfix' : ∀ q ∈ normalize_keys d, normKey q.1 = q.1 := by
      rw [normalize_keys_eq_foldl]
      exact hfix
    have hnd' : (([] : List (String × PyVal)).map Prod.fst ++
        (normalize_keys d).map Prod.fst).Nodup := by
      rw [normalize_keys_eq_foldl]
      simpa using hnd
    calc normalize_keys (normalize_keys d)
        = (normalize_keys d).foldl normStep [] := rfl
      _ = [] ++ normalize_keys d := foldl_normStep_fix (normalize_keys d) [] hfix' hnd'
      _ = normalize_keys d := by simp
  · intro k
    constructor
    · intro h
      rw [normKey_eq k, if_pos h]
    · intro h
      rw [normKey_eq k, if_neg h]

/-- C8 witness: idempotence and key matching at a concrete record with a
mixed-case canonical key and an unknown key. -/
theorem normalize_keys_idempotent_witness :
    normalize_keys (normalize_keys
        [("Phrase", PyVal.str "x"), ("Other", PyVal.int 1)]) =
      normalize_keys [("Phrase", PyVal.str "x"), ("Other", PyVal.int 1)] ∧
    normKey "Bias_Score" = pyLower "Bias_Score" ∧ normKey "Other" = "Other" :=
  ⟨normalize_keys_idempotent.1 [("Phrase", PyVal.str "x"), ("Other", PyVal.int 1)],
   (normalize_keys_idempotent.2 "Bias_Score").1 (by decide),
   (normalize_keys_idempotent.2 "Other").2 (by decide)⟩

/-- C9: a successfully parsed non-error record with no `bias_score` key
gets the default `0`, which converts to the integer `0` and is included
in the score list — unlike a non-convertible score, which is skipped —
and including the extra `0` strictly lowers any positive overall
average. -/
theorem missing_bias_score_defaults_to_zero (items : List PyVal)
    (d : List (String × PyVal))
    (hnb : ∀ p ∈ d, p.1 ≠ "bias_score") (hne : ∀ p ∈ d, p.1 ≠ "error") :
    (runAgg (items ++ [PyVal.dict d])).all_scores =
      (runAgg items).all_scores ++ [0] ∧
    (∀ x y : Rat, 0 < (runAgg items).all_scores.sum →
      overallScore (runAgg items) = some x →
      overallScore (runAgg (items ++ [PyVal.dict d])) = some y → y < x) := by
  have herr : d.any (fun p => p.1 == "error") = false := by
    rw [List.any_eq_false]
    intro p hp
    simpa using hne p hp
  have hbs : dictGet d "bias_score" = Option.none := by
    unfold dictGet
    rw [List.find?_eq_none.mpr]
    · rfl
    · intro p hp
      simpa using hnb p hp
  have h1 : runAgg (items ++ [PyVal.dict d]) =
      processItem (runAgg items) (PyVal.dict d) := by
    unfold runAgg
    rw [List.foldl_append]
    rfl
  have hscores : (runAgg (items ++ [PyVal.dict d])).all_scores =
      (runAgg items).all_scores ++ [0] := by
    rw [h1, processItem_scores]
    simp [herr, hbs, pyToInt]
  refine ⟨hscores, ?_⟩
  intro x y hsum hx hy
  set s := (runAgg items).all_scores with hsdef
  have hne2 : s ≠ [] := by
    intro h
    rw [h] at hsum
    simp at hsum
  unfold overallScore at hx hy
  rw [if_neg hne2] at hx
  rw [hscores, if_neg (by simp)] at hy
  have hxval : x = ((s.sum : Rat) / (s.length : Rat)) := by
    exact (Option.some_injective _ hx).symm
  have hyval : y = (((s ++ [0]).sum : Rat) / ((s ++ [0]).length : Rat)) := by
    exact (Option.some_injective _ hy).symm
  have hsum2 : ((s ++ [0]).sum : Int) = s.sum := by simp
  have hlen2 : ((s ++ [0]).length : Nat) = s.length + 1 := by simp
  rw [hxval, hyval, hsum2, hlen2]
  have hS : (0 : Rat) < (s.sum : Rat) := by exact_mod_cast hsum
  have hn : (0 : Rat) < (s.length : Rat) := by
    have : 0 < s.length := List.length_pos.mpr hne2
    exact_mod_cast this
  have hlt : (s.length : Rat) < ((s.length + 1 : Nat) : Rat) := by
    push_cast
    linarith
  calc ((s.sum : Rat) / (((s.length + 1 : Nat)) : Rat))
      < (s.sum : Rat) / (s.length : Rat) :=
        div_lt_div_of_pos_left hS hn hlt
    _ = (s.sum : Rat) / (s.length : Rat) := rfl

/-- C9 witness: a record with score 30 followed by a record without a
`bias_score` key yields the score list `[30, 0]`, and the average drops
from 30 to 15. -/
theorem missing_bias_score_witness :
    (runAgg ([PyVal.dict [("bias_score", PyVal.int 30)]] ++
        [PyVal.dict [("phrase", PyVal.str "x")]])).all_scores =
      (runAgg [PyVal.dict [("bias_score", PyVal.int 30)]]).all_scores ++ [0] ∧
    overallScore (runAgg ([PyVal.dict [("bias_score", PyVal.int 30)]] ++
        [PyVal.dict [("phrase", PyVal.str "x")]])) = some 15 ∧
    (15 : Rat) < 30 := by
  have h := missing_bias_score_defaults_to_zero
    [PyVal.dict [("bias_score", PyVal.int 30)]] [("phrase", PyVal.str "x")]
    (by decide) (by decide)
  refine ⟨h.1, ?_, by norm_num⟩
  have hsc : (runAgg ([PyVal.dict [("bias_score", PyVal.int 30)]] ++
      [PyVal.dict [("phrase", PyVal.str "x")]])).all_scores = [30, 0] := by
    rw [h.1]
    rfl
  unfold overallScore
  rw [hsc, if_neg (by simp : ¬ ([30, 0] : List Int) = [])]
  norm_num

/-- C10: the aggregator treats a category or recommendation equal to the
string `"N/A"` exactly like a missing field: in either case the category
is not tallied and the recommendation is not added to the follow-up
list. -/
theorem na_category_and_recommendation_treated_as_absent (st : AggState)
    (d : List (String × PyVal)) :
    ((dictGet d "category" = some (PyVal.str "N/A") ∨
      dictGet d "category" = Option.none) →
        (processItem st (PyVal.dict d)).all_categories = st.all_categories) ∧
    ((dictGet d "recommendation" = some (PyVal.str "N/A") ∨
      dictGet d "recommendation" = Option.none) →
        (processItem st (PyVal.dict d)).followups = st.followups) := by
  constructor
  · intro hc
    have hna : isNAstr ((dictGet d "category").getD (PyVal.str "N/A")) = true := by
      rcases hc with h | h <;> rw [h] <;> rfl
    by_cases herr : d.any (fun p => p.1 == "error") = true
    · simp [processItem, herr]
    · rw [Bool.not_eq_true] at herr
      simp only [processItem, herr, Bool.false_eq_true, if_false, hna, if_true]
      split <;> split <;> rfl
  · intro hr
    have hna : isNAstr ((dictGet d "recommendation").getD (PyVal.str "N/A")) = true := by
      rcases hr with h | h <;> rw [h] <;> rfl
    by_cases herr : d.any (fun p => p.1 == "error") = true
    · simp [processItem, herr]
    · rw [Bool.not_eq_true] at herr
      simp only [processItem, herr, Bool.false_eq_true, if_false, hna, if_true]
      split <;> split <;> rfl

/-- C10 witness: a record whose category is the string `"N/A"` and whose
recommendation is missing contributes to neither tally. -/
theorem na_treated_as_absent_witness :
    (processItem ⟨[], [], []⟩
      (PyVal.dict [("category", PyVal.str "N/A")])).all_categories = [] ∧
    (processItem ⟨[], [], []⟩
      (PyVal.dict [("category", PyVal.str "N/A")])).followups = [] :=
  ⟨(na_category_and_recommendation_treated_as_absent ⟨[], [], []⟩
      [("category", PyVal.str "N/A")]).1 (Or.inl rfl),
   (na_category_and_recommendation_treated_as_absent ⟨[], [], []⟩
      [("category", PyVal.str "N/A")]).2 (Or.inr rfl)⟩
